import Mathlib

/-!
Verification of the concurrent-download assignment repository
(`src/Student/src/queue.c`, `src/Student/src/http.c`) against its
natural-language specification.

The C code is shallowly embedded: C `int` fields become `Int`, pointers
stored in the queue become values of a type parameter `α`, the circular
`void**` buffer becomes a function `Int → Option α` (with `none` for a
slot that has never been written), and a completed `queue_put` /
`queue_get` call becomes a pure state transformer.  C's `%` on `int`
agrees with `Int.emod` whenever both operands are nonnegative, which is
the case for every index computation below once the queue size is
positive.
-/

namespace DownloaderProof

/-- The `Queue` struct of `src/Student/src/queue.c` (lines 22-30).
Semaphores are modelled by their counter values: `sem_wait` decrements
(and can only complete when the value is positive), `sem_post`
increments.  `malloc` success is assumed (on failure the C code calls
`exit`, leaving no state to model). -/
structure Queue (α : Type) where
  size : Int
  elements : Int → Option α
  read_index : Int
  write_index : Int
  mutex : Int
  sem_read : Int
  sem_write : Int

/-- `queue_alloc` (queue.c lines 39-65): no capacity validation at all;
indexes start at 0, `mutex` at 1, `sem_read` at 0, `sem_write` at `size`. -/
def queue_alloc (α : Type) (size : Int) : Queue α :=
  { size := size
    elements := fun _ => none
    read_index := 0
    write_index := 0
    mutex := 1
    sem_read := 0
    sem_write := size }

/-- A completed `queue_put` (queue.c lines 94-103):
`sem_wait(&sem_write)` (decrement), `sem_wait(&mutex)` then
`sem_post(&mutex)` (net zero once the call completes), store `item` at
`write_index`, advance `write_index` modulo `size`, `sem_post(&sem_read)`
(increment). -/
def queue_put (queue : Queue α) (item : α) : Queue α :=
  { queue with
    elements := fun i => if i = queue.write_index then some item else queue.elements i
    write_index := (queue.write_index + 1) % queue.size
    sem_write := queue.sem_write - 1
    sem_read := queue.sem_read + 1 }

/-- A completed `queue_get` (queue.c lines 117-128): symmetric to
`queue_put`; returns the element at `read_index` and advances it. -/
def queue_get (queue : Queue α) : Queue α × Option α :=
  ({ queue with
      read_index := (queue.read_index + 1) % queue.size
      sem_read := queue.sem_read - 1
      sem_write := queue.sem_write + 1 },
    queue.elements queue.read_index)

/-- `sem_wait(&sem_write)` completes without blocking. -/
def canPut (queue : Queue α) : Prop := 0 < queue.sem_write

/-- `sem_wait(&sem_read)` completes without blocking. -/
def canGet (queue : Queue α) : Prop := 0 < queue.sem_read

instance (queue : Queue α) : Decidable (canPut queue) := by
  unfold canPut; infer_instance

instance (queue : Queue α) : Decidable (canGet queue) := by
  unfold canGet; infer_instance

/-- One queue operation of a client. -/
inductive QOp (α : Type) where
  | put (item : α)
  | get
deriving DecidableEq, Repr

/-- Run a sequence of completed operations, collecting the value returned
by each `queue_get` in order. -/
def execTrace (queue : Queue α) : List (QOp α) → Queue α × List (Option α)
  | [] => (queue, [])
  | QOp.put v :: rest => execTrace (queue_put queue v) rest
  | QOp.get :: rest =>
      let step := queue_get queue
      let res := execTrace step.1 rest
      (res.1, step.2 :: res.2)

/-- Every operation of the trace completes: each `put` finds
`sem_write > 0` and each `get` finds `sem_read > 0` when it runs. -/
def validTrace (queue : Queue α) : List (QOp α) → Bool
  | [] => true
  | QOp.put v :: rest => decide (0 < queue.sem_write) && validTrace (queue_put queue v) rest
  | QOp.get :: rest => decide (0 < queue.sem_read) && validTrace (queue_get queue).1 rest

/-- The items put by a trace, in order. -/
def putValues : List (QOp α) → List α
  | [] => []
  | QOp.put v :: rest => v :: putValues rest
  | QOp.get :: rest => putValues rest

/-- Number of `get` operations in a trace. -/
def numGets : List (QOp α) → Nat
  | [] => 0
  | QOp.put _ :: rest => numGets rest
  | QOp.get :: rest => numGets rest + 1

/-- Refinement invariant linking the circular-buffer state to the list
`model` of items currently stored, oldest first. -/
def QueueInv (queue : Queue α) (model : List α) : Prop :=
  1 ≤ queue.size ∧
  0 ≤ queue.read_index ∧
  queue.read_index < queue.size ∧
  queue.write_index = (queue.read_index + (model.length : Int)) % queue.size ∧
  queue.sem_read = (model.length : Int) ∧
  queue.sem_write = queue.size - (model.length : Int) ∧
  queue.mutex = 1 ∧
  (model.length : Int) ≤ queue.size ∧
  ∀ k : Nat, (hk : k < model.length) →
    queue.elements ((queue.read_index + (k : Int)) % queue.size) = some (model.get ⟨k, hk⟩)

theorem queueInv_alloc (α : Type) (s : Int) (hs : 1 ≤ s) :
    QueueInv (queue_alloc α s) [] := by
  unfold QueueInv queue_alloc
  simp
  omega

theorem emod_ne_of_lt (s a b : Int) (_hs : 0 < s) (h1 : 0 < b - a) (h2 : b - a < s) :
    a % s ≠ b % s := by
  intro he
  have hd : s ∣ b - a := Int.ModEq.dvd he
  have := Int.le_of_dvd h1 hd
  omega

theorem emod_add_left_cancel (s a b : Int) : (a % s + b) % s = (a + b) % s := by
  rw [Int.add_emod, Int.emod_emod_of_dvd _ (dvd_refl s), ← Int.add_emod]

theorem queueInv_put (queue : Queue α) (model : List α) (item : α)
    (hInv : QueueInv queue model) (hCan : 0 < queue.sem_write) :
    QueueInv (queue_put queue item) (model ++ [item]) := by
  obtain ⟨hs, hr0, hrs, hw, hsr, hsw, hm, hlen, helem⟩ := hInv
  have hlt : (model.length : Int) < queue.size := by omega
  unfold QueueInv queue_put
  simp only [List.length_append, List.length_cons, List.length_nil]
  refine ⟨hs, hr0, hrs, ?_, by push_cast; omega, by push_cast; omega, hm,
    by push_cast; omega, ?_⟩
  · rw [hw, emod_add_left_cancel]
    congr 1
    push_cast
    ring
  · intro k hk
    rcases Nat.lt_or_ge k model.length with hklt | hkge
    · rw [if_neg, helem k hklt]
      · simp only [List.get_eq_getElem]
        congr 1
        exact (List.getElem_append_left hklt).symm
      · rw [hw]
        apply emod_ne_of_lt _ _ _ (by omega) <;> omega
    · have hkeq : k = model.length := by omega
      subst hkeq
      rw [if_pos (by rw [hw])]
      simp [List.get_eq_getElem]

theorem queueInv_get (queue : Queue α) (model : List α)
    (hInv : QueueInv queue model) (hCan : 0 < queue.sem_read) :
    QueueInv (queue_get queue).1 model.tail ∧ (queue_get queue).2 = model.head? := by
  obtain ⟨hs, hr0, hrs, hw, hsr, hsw, hm, hlen, helem⟩ := hInv
  have hpos : 0 < model.length := by
    rcases Nat.eq_zero_or_pos model.length with h | h
    · rw [h] at hsr; simp at hsr; omega
    · exact h
  obtain ⟨m0, mrest, rfl⟩ : ∃ m0 mrest, model = m0 :: mrest := by
    cases model with
    | nil => simp at hpos
    | cons a l => exact ⟨a, l, rfl⟩
  have hszero : queue.size ≠ 0 := by omega
  have hhead : queue.elements queue.read_index = some m0 := by
    have := helem 0 (by simp)
    rw [show queue.read_index + ((0 : Nat) : Int) = queue.read_index by simp] at this
    rw [Int.emod_eq_of_lt hr0 hrs] at this
    simpa using this
  constructor
  · unfold QueueInv queue_get
    simp only [List.tail_cons, List.length_cons] at *
    refine ⟨hs, Int.emod_nonneg _ hszero, Int.emod_lt_of_pos _ (by omega), ?_,
      by push_cast at hsr ⊢; omega, by push_cast at hsw ⊢; omega, hm,
      by push_cast at hlen ⊢; omega, ?_⟩
    · rw [emod_add_left_cancel, hw]
      congr 1
      push_cast
      ring
    · intro k hk
      rw [emod_add_left_cancel]
      have hk1 : k + 1 < mrest.length + 1 := by omega
      have := helem (k + 1) (by simpa using hk1)
      rw [show queue.read_index + 1 + (k : Int) = queue.read_index + ((k + 1 : Nat) : Int) by
        push_cast; ring]
      rw [this]
      simp
  · unfold queue_get
    simp [hhead]

/-- Main sequential refinement: running a valid trace from a state
satisfying the invariant yields the FIFO outputs and preserves the
invariant on the remaining items. -/
theorem execTrace_fifo (tr : List (QOp α)) (queue : Queue α) (model : List α)
    (hInv : QueueInv queue model) (hValid : validTrace queue tr = true) :
    (execTrace queue tr).2
        = ((model ++ putValues tr).take (numGets tr)).map some ∧
      QueueInv (execTrace queue tr).1 ((model ++ putValues tr).drop (numGets tr)) := by
  induction tr generalizing queue model with
  | nil =>
    simpa [execTrace, putValues, numGets] using hInv
  | cons op rest ih =>
    cases op with
    | put v =>
      simp only [validTrace, Bool.and_eq_true, decide_eq_true_eq] at hValid
      have h1 := ih (queue_put queue v) (model ++ [v])
        (queueInv_put queue model v hInv hValid.1) hValid.2
      simpa [execTrace, putValues, numGets, List.append_assoc] using h1
    | get =>
      simp only [validTrace, Bool.and_eq_true, decide_eq_true_eq] at hValid
      obtain ⟨hInv1, hret⟩ := queueInv_get queue model hInv hValid.1
      have hpos : 0 < model.length := by
        obtain ⟨_, _, _, _, hsr, _⟩ := hInv
        rcases Nat.eq_zero_or_pos model.length with h | h
        · rw [h] at hsr; simp at hsr; omega
        · exact h
      obtain ⟨m0, mrest, rfl⟩ : ∃ m0 mrest, model = m0 :: mrest := by
        cases model with
        | nil => simp at hpos
        | cons a l => exact ⟨a, l, rfl⟩
      have h1 := ih (queue_get queue).1 mrest (by simpa using hInv1) hValid.2
      simp only [execTrace, numGets, putValues]
      constructor
      · rw [hret, h1.1]
        simp
      · simp only [List.cons_append, List.drop_succ_cons]
        exact h1.2

theorem execTrace_results_length (tr : List (QOp α)) (queue : Queue α) :
    (execTrace queue tr).2.length = numGets tr := by
  induction tr generalizing queue with
  | nil => rfl
  | cons op rest ih =>
    cases op with
    | put v => simpa [execTrace, numGets] using ih (queue_put queue v)
    | get => simpa [execTrace, numGets] using ih (queue_get queue).1

theorem execTrace_size (tr : List (QOp α)) (queue : Queue α) :
    (execTrace queue tr).1.size = queue.size := by
  induction tr generalizing queue with
  | nil => rfl
  | cons op rest ih =>
    cases op with
    | put v => simpa [execTrace, queue_put] using ih (queue_put queue v)
    | get => simpa [execTrace, queue_get] using ih (queue_get queue).1

theorem numGets_le_putValues_length (tr : List (QOp α)) (queue : Queue α)
    (model : List α) (hInv : QueueInv queue model)
    (hValid : validTrace queue tr = true) :
    numGets tr ≤ model.length + (putValues tr).length := by
  have h := (execTrace_fifo tr queue model hInv hValid).1
  have hlen := congrArg List.length h
  rw [execTrace_results_length] at hlen
  simp at hlen
  omega

/-- C1: for every sequence of completed `queue_put`/`queue_get` operations
(each `get` issued with the queue non-empty, each `put` with the queue not
full) on a queue of positive capacity, the number of gets never exceeds the
number of puts, the list of values returned by the gets is exactly the
first `numGets` values put, in order (FIFO, nothing dropped, duplicated or
reordered), and hence the i-th completed get returns the i-th put value. -/
theorem C1_queue_fifo (α : Type) (s : Int) (tr : List (QOp α))
    (hs : 1 ≤ s) (hv : validTrace (queue_alloc α s) tr = true) :
    numGets tr ≤ (putValues tr).length ∧
    (execTrace (queue_alloc α s) tr).2
      = ((putValues tr).take (numGets tr)).map some ∧
    ∀ i, i < numGets tr →
      (execTrace (queue_alloc α s) tr).2[i]? = ((putValues tr)[i]?).map some := by
  have hfifo := (execTrace_fifo tr (queue_alloc α s) [] (queueInv_alloc α s hs) hv).1
  have hle : numGets tr ≤ (putValues tr).length := by
    have := numGets_le_putValues_length tr (queue_alloc α s) [] (queueInv_alloc α s hs) hv
    simpa using this
  simp only [List.nil_append] at hfifo
  refine ⟨hle, hfifo, ?_⟩
  intro i hi
  rw [hfifo, List.getElem?_map, List.getElem?_take]
  rw [if_pos hi]

theorem C1_queue_fifo_witness :
    (1 : Int) ≤ 2 ∧
    validTrace (queue_alloc Nat 2)
      [QOp.put 10, QOp.put 20, QOp.get, QOp.put 30, QOp.get, QOp.get] = true ∧
    (numGets [QOp.put 10, QOp.put 20, QOp.get, QOp.put 30, QOp.get, QOp.get]
        ≤ (putValues [QOp.put 10, QOp.put 20, QOp.get, QOp.put 30, QOp.get,
            QOp.get]).length ∧
      (execTrace (queue_alloc Nat 2)
          [QOp.put 10, QOp.put 20, QOp.get, QOp.put 30, QOp.get, QOp.get]).2
        = ((putValues [QOp.put 10, QOp.put 20, QOp.get, QOp.put 30, QOp.get,
            QOp.get]).take (numGets [QOp.put 10, QOp.put 20, QOp.get,
            QOp.put 30, QOp.get, QOp.get])).map some ∧
      ∀ i, i < numGets [QOp.put 10, QOp.put 20, QOp.get, QOp.put 30, QOp.get,
          QOp.get] →
        (execTrace (queue_alloc Nat 2)
            [QOp.put 10, QOp.put 20, QOp.get, QOp.put 30, QOp.get, QOp.get]).2[i]?
          = ((putValues [QOp.put 10, QOp.put 20, QOp.get, QOp.put 30, QOp.get,
              QOp.get])[i]?).map some) :=
  ⟨by decide, by decide,
    C1_queue_fifo Nat 2 [QOp.put 10, QOp.put 20, QOp.get, QOp.put 30, QOp.get, QOp.get]
      (by decide) (by decide)⟩

/-- C9: for every queue allocated with positive capacity and every valid
trace of completed operations, `read_index` and `write_index` remain in
`[0, size)` (and `size` is unchanged), so the circular-buffer accesses
`elements[read_index]` and `elements[write_index]` performed by
`queue_get` and `queue_put` are always within the allocated bounds.
The empty trace gives the state immediately after allocation. -/
theorem C9_indexes_in_bounds (α : Type) (s : Int) (tr : List (QOp α))
    (hs : 1 ≤ s) (hv : validTrace (queue_alloc α s) tr = true) :
    (execTrace (queue_alloc α s) tr).1.size = s ∧
    0 ≤ (execTrace (queue_alloc α s) tr).1.read_index ∧
    (execTrace (queue_alloc α s) tr).1.read_index < s ∧
    0 ≤ (execTrace (queue_alloc α s) tr).1.write_index ∧
    (execTrace (queue_alloc α s) tr).1.write_index < s := by
  have hsz : (execTrace (queue_alloc α s) tr).1.size = s := by
    rw [execTrace_size]; rfl
  have hInv := (execTrace_fifo tr (queue_alloc α s) [] (queueInv_alloc α s hs) hv).2
  obtain ⟨h1, hr0, hrs, hw, _, _, _, _, _⟩ := hInv
  rw [hsz] at h1 hrs
  refine ⟨hsz, hr0, hrs, ?_, ?_⟩
  · rw [hw]
    exact Int.emod_nonneg _ (by omega)
  · rw [hw, hsz]
    exact Int.emod_lt_of_pos _ (by omega)

theorem C9_indexes_in_bounds_witness :
    (1 : Int) ≤ 3 ∧
    validTrace (queue_alloc Nat 3) [QOp.put 5, QOp.get, QOp.put 6] = true ∧
    ((execTrace (queue_alloc Nat 3) [QOp.put 5, QOp.get, QOp.put 6]).1.size = 3 ∧
      0 ≤ (execTrace (queue_alloc Nat 3) [QOp.put 5, QOp.get, QOp.put 6]).1.read_index ∧
      (execTrace (queue_alloc Nat 3) [QOp.put 5, QOp.get, QOp.put 6]).1.read_index < 3 ∧
      0 ≤ (execTrace (queue_alloc Nat 3) [QOp.put 5, QOp.get, QOp.put 6]).1.write_index ∧
      (execTrace (queue_alloc Nat 3) [QOp.put 5, QOp.get, QOp.put 6]).1.write_index < 3) :=
  ⟨by decide, by decide,
    C9_indexes_in_bounds Nat 3 [QOp.put 5, QOp.get, QOp.put 6] (by decide) (by decide)⟩

theorem putValues_replicate (k : Nat) (v : α) :
    putValues (List.replicate k (QOp.put v)) = List.replicate k v := by
  induction k with
  | zero => rfl
  | succ n ih => simp [List.replicate_succ, putValues, ih]

theorem numGets_replicate (k : Nat) (v : α) :
    numGets (List.replicate k (QOp.put v)) = 0 := by
  induction k with
  | zero => rfl
  | succ n ih => simp [List.replicate_succ, numGets, ih]

theorem validTrace_replicate_put (v : α) (k : Nat) (queue : Queue α) (model : List α)
    (hInv : QueueInv queue model) (hk : (k : Int) ≤ queue.size - model.length) :
    validTrace queue (List.replicate k (QOp.put v)) = true := by
  induction k generalizing queue model with
  | zero => rfl
  | succ n ih =>
    rw [List.replicate_succ]
    simp only [validTrace, Bool.and_eq_true, decide_eq_true_eq]
    have hcan : 0 < queue.sem_write := by
      obtain ⟨_, _, _, _, _, hsw, _⟩ := hInv
      push_cast at hk
      omega
    refine ⟨hcan, ih (queue_put queue v) (model ++ [v]) (queueInv_put queue model v hInv hcan) ?_⟩
    have hsz : (queue_put queue v).size = queue.size := rfl
    rw [hsz]
    simp
    push_cast at hk ⊢
    omega

/-- C2: on a queue of capacity `C ≥ 1`, after any valid trace of completed
operations `sem_read` equals the number of stored items
(puts minus gets), `sem_write` equals `C` minus that number, and the count
never exceeds `C`.  Moreover the trace of `C` consecutive puts completes,
leaves `sem_write = 0` (so a further put cannot proceed), and after one
`queue_get` a put can proceed again. -/
theorem C2_semaphore_invariant (α : Type) (C : Nat) (v : α) (tr : List (QOp α))
    (hC : 1 ≤ C) (hv : validTrace (queue_alloc α (C : Int)) tr = true) :
    ((execTrace (queue_alloc α (C : Int)) tr).1.sem_read
        = ((putValues tr).length : Int) - (numGets tr : Int) ∧
      (execTrace (queue_alloc α (C : Int)) tr).1.sem_write
        = (C : Int) - (execTrace (queue_alloc α (C : Int)) tr).1.sem_read ∧
      (execTrace (queue_alloc α (C : Int)) tr).1.sem_read ≤ (C : Int)) ∧
    (validTrace (queue_alloc α (C : Int)) (List.replicate C (QOp.put v)) = true ∧
      ¬ canPut (execTrace (queue_alloc α (C : Int)) (List.replicate C (QOp.put v))).1 ∧
      canPut (queue_get (execTrace (queue_alloc α (C : Int))
        (List.replicate C (QOp.put v))).1).1) := by
  have hC1 : (1 : Int) ≤ (C : Int) := by exact_mod_cast hC
  have hInit := queueInv_alloc α (C : Int) hC1
  constructor
  · have hInv := (execTrace_fifo tr (queue_alloc α (C : Int)) [] hInit hv).2
    have hle : numGets tr ≤ (putValues tr).length := by
      have := numGets_le_putValues_length tr (queue_alloc α (C : Int)) [] hInit hv
      simpa using this
    obtain ⟨_, _, _, _, hsr, hsw, _, hlen, _⟩ := hInv
    have hsz : (execTrace (queue_alloc α (C : Int)) tr).1.size = (C : Int) := by
      rw [execTrace_size]; rfl
    rw [hsz] at hsw hlen
    simp only [List.nil_append, List.length_drop] at hsr hsw hlen
    refine ⟨?_, ?_, ?_⟩
    · rw [hsr]; omega
    · rw [hsw, hsr]
    · rw [hsr]; omega
  · have hvrep : validTrace (queue_alloc α (C : Int)) (List.replicate C (QOp.put v)) = true := by
      apply validTrace_replicate_put v C _ [] hInit
      show (C : Int) ≤ (queue_alloc α (C : Int)).size - (([] : List α).length : Int)
      unfold queue_alloc
      simp
    refine ⟨hvrep, ?_, ?_⟩
    · have hInv := (execTrace_fifo (List.replicate C (QOp.put v))
        (queue_alloc α (C : Int)) [] hInit hvrep).2
      obtain ⟨_, _, _, _, _, hsw, _, _, _⟩ := hInv
      have hsz : (execTrace (queue_alloc α (C : Int)) (List.replicate C (QOp.put v))).1.size
          = (C : Int) := by
        rw [execTrace_size]; rfl
      rw [hsz] at hsw
      simp only [List.nil_append, putValues_replicate, numGets_replicate, List.drop_zero,
        List.length_replicate] at hsw
      unfold canPut
      omega
    · have hInv := (execTrace_fifo (List.replicate C (QOp.put v))
        (queue_alloc α (C : Int)) [] hInit hvrep).2
      obtain ⟨_, _, _, _, _, hsw, _, _, _⟩ := hInv
      have hsz : (execTrace (queue_alloc α (C : Int)) (List.replicate C (QOp.put v))).1.size
          = (C : Int) := by
        rw [execTrace_size]; rfl
      rw [hsz] at hsw
      simp only [List.nil_append, putValues_replicate, numGets_replicate, List.drop_zero,
        List.length_replicate] at hsw
      unfold canPut queue_get
      simp
      omega

theorem C2_semaphore_invariant_witness :
    1 ≤ 2 ∧
    validTrace (queue_alloc Nat ((2 : Nat) : Int)) [QOp.put 7, QOp.get, QOp.put 8] = true ∧
    (((execTrace (queue_alloc Nat ((2 : Nat) : Int)) [QOp.put 7, QOp.get, QOp.put 8]).1.sem_read
        = ((putValues [QOp.put 7, QOp.get, QOp.put 8]).length : Int)
          - (numGets [QOp.put 7, QOp.get, QOp.put 8] : Int) ∧
      (execTrace (queue_alloc Nat ((2 : Nat) : Int)) [QOp.put 7, QOp.get, QOp.put 8]).1.sem_write
        = ((2 : Nat) : Int) - (execTrace (queue_alloc Nat ((2 : Nat) : Int))
            [QOp.put 7, QOp.get, QOp.put 8]).1.sem_read ∧
      (execTrace (queue_alloc Nat ((2 : Nat) : Int)) [QOp.put 7, QOp.get,
          QOp.put 8]).1.sem_read ≤ ((2 : Nat) : Int)) ∧
    (validTrace (queue_alloc Nat ((2 : Nat) : Int)) (List.replicate 2 (QOp.put 9)) = true ∧
      ¬ canPut (execTrace (queue_alloc Nat ((2 : Nat) : Int)) (List.replicate 2 (QOp.put 9))).1 ∧
      canPut (queue_get (execTrace (queue_alloc Nat ((2 : Nat) : Int))
        (List.replicate 2 (QOp.put 9))).1).1)) :=
  ⟨by decide, by decide,
    C2_semaphore_invariant Nat 2 9 [QOp.put 7, QOp.get, QOp.put 8] (by decide) (by decide)⟩

/-- C3 counterexample: `queue_alloc` applied to capacity 0 does not fail
with any `InvalidCapacity` error — the code has no capacity check and no
error value at all; it returns an ordinary queue structure with
`size = 0`, `sem_read = 0` and `sem_write = 0`. -/
theorem C3_counterexample :
    queue_alloc Nat 0
      = { size := 0, elements := fun _ => none, read_index := 0, write_index := 0,
          mutex := 1, sem_read := 0, sem_write := 0 } := rfl

/-- C3 amended: `queue_alloc` performs no capacity validation and returns
a queue for every requested capacity (there is no `InvalidCapacity` error
in the code); for capacity ≤ 0 the returned queue has `sem_read = 0` and
`sem_write = capacity ≤ 0`, so no `queue_put` and no `queue_get` can ever
complete on it — the queue is unusable but allocation still returns it.
(`malloc` success is assumed; on `malloc` failure the C code terminates
the process rather than reporting `InvalidCapacity`.) -/
theorem C3_amended (α : Type) (size : Int) (h : size ≤ 0) :
    (queue_alloc α size).sem_write = size ∧
    (queue_alloc α size).sem_read = 0 ∧
    ¬ canPut (queue_alloc α size) ∧
    ¬ canGet (queue_alloc α size) := by
  unfold queue_alloc canPut canGet
  simp
  omega

theorem C3_amended_witness :
    (0 : Int) ≤ 0 ∧
    ((queue_alloc Nat 0).sem_write = 0 ∧
      (queue_alloc Nat 0).sem_read = 0 ∧
      ¬ canPut (queue_alloc Nat 0) ∧
      ¬ canGet (queue_alloc Nat 0)) :=
  ⟨le_refl 0, C3_amended Nat 0 (le_refl 0)⟩

/-!
Model of the pure parts of `src/Student/src/http.c`.

C strings are embedded as `List Char`; a returned `char*` that points into
a buffer is embedded as the offset of that pointer from the start of the
buffer.
-/

/-- `strstr needle`-style search: index of the first occurrence of `pat`
in the second argument, `none` if there is none. -/
def strstr (pat : List Char) : List Char → Option Nat
  | [] => if pat.isPrefixOf ([] : List Char) then some 0 else none
  | c :: rest =>
      if pat.isPrefixOf (c :: rest) then some 0
      else (strstr pat rest).map (fun i => i + 1)

theorem strstr_some (pat : List Char) (hay : List Char) (i : Nat)
    (h : strstr pat hay = some i) : pat <+: hay.drop i := by
  induction hay generalizing i with
  | nil =>
    unfold strstr at h
    split at h
    · cases h
      rename_i hp
      simpa using List.isPrefixOf_iff_prefix.mp hp
    · cases h
  | cons c rest ih =>
    unfold strstr at h
    split at h
    · cases h
      rename_i hp
      simpa using List.isPrefixOf_iff_prefix.mp hp
    · cases hj : strstr pat rest with
      | none => rw [hj] at h; cases h
      | some j =>
        rw [hj] at h
        simp at h
        subst h
        simpa using ih j hj

theorem strstr_none (pat : List Char) (hay : List Char)
    (h : strstr pat hay = none) :
    ∀ i, ¬ (pat <+: hay.drop i) := by
  induction hay with
  | nil =>
    intro i hpre
    unfold strstr at h
    split at h
    · cases h
    · rename_i hp
      rw [List.drop_nil] at hpre
      exact hp (List.isPrefixOf_iff_prefix.mpr hpre)
  | cons c rest ih =>
    intro i hpre
    unfold strstr at h
    split at h
    · cases h
    · rename_i hp
      cases hj : strstr pat rest with
      | some j => rw [hj] at h; simp at h
      | none =>
        cases i with
        | zero => exact hp (List.isPrefixOf_iff_prefix.mpr (by simpa using hpre))
        | succ k => exact ih hj k (by simpa using hpre)

/-- The HTTP header terminator searched for by `http_get_content`. -/
def headerTerminator : List Char := ['\r', '\n', '\r', '\n']

/-- `http_get_content` (http.c lines 173-183), as the offset into
`response->data` of the returned pointer: `strstr(data, "\r\n\r\n")`;
if found, return the position just past the four terminator characters,
otherwise return the start of the buffer (offset 0). -/
def http_get_content (data : List Char) : Nat :=
  match strstr headerTerminator data with
  | some i => i + 4
  | none => 0

/-- C10: when the response data contains no `\r\n\r\n` header terminator,
`http_get_content` returns the start of the buffer (offset 0, the whole
buffer treated as content) — not a NULL/error result; and whenever the
`strstr` search succeeds at position `i`, it returns offset `i + 4`,
strictly past the terminator and within the buffer. -/
theorem C10_http_get_content (data : List Char) :
    (strstr headerTerminator data = none → http_get_content data = 0) ∧
    ((∀ i, ¬ (headerTerminator <+: data.drop i)) →
      http_get_content data = 0) ∧
    (∀ i, strstr headerTerminator data = some i →
      http_get_content data = i + 4 ∧
      (headerTerminator <+: data.drop i) ∧
      i + 4 ≤ data.length) := by
  refine ⟨?_, ?_, ?_⟩
  · intro h
    unfold http_get_content
    rw [h]
  · intro h
    unfold http_get_content
    cases hs : strstr headerTerminator data with
    | none => rfl
    | some i => exact absurd (strstr_some headerTerminator data i hs) (h i)
  · intro i h
    have hpre := strstr_some headerTerminator data i h
    have hlen : headerTerminator.length ≤ (data.drop i).length := hpre.length_le
    simp only [headerTerminator, List.length_cons, List.length_nil, List.length_drop] at hlen
    refine ⟨?_, hpre, ?_⟩
    · unfold http_get_content
      rw [h]
    · rcases Nat.le_total i data.length with hi | hi <;> omega

theorem C10_http_get_content_witness :
    (strstr headerTerminator ("ab\r\n\r\ncd".toList) = some 2) ∧
    (http_get_content ("ab\r\n\r\ncd".toList) = 6 ∧
      (headerTerminator <+: (("ab\r\n\r\ncd".toList).drop 2)) ∧
      2 + 4 ≤ ("ab\r\n\r\ncd".toList).length) ∧
    http_get_content ("no terminator here".toList) = 0 :=
  ⟨by decide,
    (C10_http_get_content ("ab\r\n\r\ncd".toList)).2.2 2 (by decide),
    (C10_http_get_content ("no terminator here".toList)).1 (by decide)⟩

/-- `max_chunk_size` as computed by `get_num_tasks` (http.c line 276):
`(content_length + threads - 1) / threads`, C integer division on the
nonnegative values in the claims' domain. -/
def max_chunk_size (content_length threads : Nat) : Nat :=
  (content_length + threads - 1) / threads

/-- The values `get_num_tasks` (http.c lines 221-280) produces from a
discovered content length: the global `max_chunk_size` it sets and the
task count it returns — which is always `threads` (line 279), regardless
of the division. -/
def get_num_tasks_plan (content_length threads : Nat) : Nat × Nat :=
  (max_chunk_size content_length threads, threads)

/-- Modelled from the spec: the task-list construction of
`ChunkPlanner.plan` is not present in the source (the downloader main that
would build byte-range tasks from `max_chunk_size` is missing from the
repository; only the chunk-size computation of `get_num_tasks` exists).
Following the spec's words, the plan has `ceil(content_length / chunk_size)`
tasks, task `i` covering offsets
`[i * chunk_size, min ((i+1) * chunk_size, content_length))`,
in ascending offset order, with the chunk size taken from the code's
`max_chunk_size`. -/
def spec_num_tasks (content_length worker_count : Nat) : Nat :=
  (content_length + max_chunk_size content_length worker_count - 1)
    / max_chunk_size content_length worker_count

/-- Modelled from the spec: the ordered task list, each task as
`(offset, length)`.  See `spec_num_tasks`. -/
def plan_tasks (content_length worker_count : Nat) : List (Nat × Nat) :=
  (List.range (spec_num_tasks content_length worker_count)).map
    (fun i =>
      (i * max_chunk_size content_length worker_count,
        min (max_chunk_size content_length worker_count)
          (content_length - i * max_chunk_size content_length worker_count)))

theorem max_chunk_size_pos (L W : Nat) (hL : 1 ≤ L) (hW : 1 ≤ W) :
    1 ≤ max_chunk_size L W := by
  unfold max_chunk_size
  rw [Nat.le_div_iff_mul_le (by omega)]
  omega

theorem spec_num_tasks_bounds (L W : Nat) (hL : 1 ≤ L) (hW : 1 ≤ W) :
    1 ≤ spec_num_tasks L W ∧
    L ≤ spec_num_tasks L W * max_chunk_size L W ∧
    (spec_num_tasks L W - 1) * max_chunk_size L W < L := by
  have hc : 0 < max_chunk_size L W := max_chunk_size_pos L W hL hW
  have hkey : spec_num_tasks L W = L ⌈/⌉ max_chunk_size L W := rfl
  have hub : L ≤ max_chunk_size L W • (L ⌈/⌉ max_chunk_size L W) := le_smul_ceilDiv hc
  rw [smul_eq_mul, Nat.mul_comm, ← hkey] at hub
  have h1 : 1 ≤ spec_num_tasks L W := by
    by_contra hcon
    push_neg at hcon
    have h0 : spec_num_tasks L W = 0 := by omega
    rw [h0] at hub
    simp at hub
    omega
  refine ⟨h1, hub, ?_⟩
  by_contra hcon
  push_neg at hcon
  have h2 : L ⌈/⌉ max_chunk_size L W ≤ spec_num_tasks L W - 1 := by
    rw [ceilDiv_le_iff_le_smul hc, smul_eq_mul, Nat.mul_comm]
    exact hcon
  rw [← hkey] at h2
  omega

theorem plan_tasks_length (L W : Nat) :
    (plan_tasks L W).length = spec_num_tasks L W := by
  unfold plan_tasks
  simp

theorem plan_tasks_get_fst (L W : Nat) (i : Nat) (hi : i < (plan_tasks L W).length) :
    ((plan_tasks L W).get ⟨i, hi⟩).1 = i * max_chunk_size L W := by
  unfold plan_tasks
  simp [plan_tasks] at hi ⊢

theorem plan_tasks_get_snd (L W : Nat) (i : Nat) (hi : i < (plan_tasks L W).length) :
    ((plan_tasks L W).get ⟨i, hi⟩).2
      = min (max_chunk_size L W) (L - i * max_chunk_size L W) := by
  unfold plan_tasks
  simp [plan_tasks] at hi ⊢

/-- C4: for `content_length ≥ 1` and `worker_count ≥ 1`, the chunk size is
exactly `ceil(content_length / worker_count)`, and the planned tasks
partition `[0, content_length)` exactly: every byte lies in exactly one
task's range, every task's range lies inside `[0, content_length)`, tasks
are in strictly ascending offset order and all are non-empty (in
particular the final chunk is never empty); for `content_length = 1000`
and `worker_count = 3` the plan is `[0,334), [334,668), [668,1000)` with
sizes `334, 334, 332`. -/
theorem C4_chunk_plan_partition (L W : Nat) (hL : 1 ≤ L) (hW : 1 ≤ W) :
    max_chunk_size L W = L ⌈/⌉ W ∧
    (∀ i, (hi : i < (plan_tasks L W).length) →
      0 < ((plan_tasks L W).get ⟨i, hi⟩).2 ∧
      ((plan_tasks L W).get ⟨i, hi⟩).1 + ((plan_tasks L W).get ⟨i, hi⟩).2 ≤ L) ∧
    (∀ i j, (hi : i < (plan_tasks L W).length) → (hj : j < (plan_tasks L W).length) →
      i < j → ((plan_tasks L W).get ⟨i, hi⟩).1 < ((plan_tasks L W).get ⟨j, hj⟩).1) ∧
    (∀ b, b < L → ∃ i, ∃ hi : i < (plan_tasks L W).length,
      (((plan_tasks L W).get ⟨i, hi⟩).1 ≤ b ∧
        b < ((plan_tasks L W).get ⟨i, hi⟩).1 + ((plan_tasks L W).get ⟨i, hi⟩).2) ∧
      ∀ j, (hj : j < (plan_tasks L W).length) →
        (((plan_tasks L W).get ⟨j, hj⟩).1 ≤ b ∧
          b < ((plan_tasks L W).get ⟨j, hj⟩).1 + ((plan_tasks L W).get ⟨j, hj⟩).2) →
        j = i) ∧
    plan_tasks 1000 3 = [(0, 334), (334, 334), (668, 332)] := by
  have hc := max_chunk_size_pos L W hL hW
  obtain ⟨hn1, hub, hlb⟩ := spec_num_tasks_bounds L W hL hW
  have hlen := plan_tasks_length L W
  have htask : ∀ i, i < (plan_tasks L W).length →
      i * max_chunk_size L W < L := by
    intro i hi
    rw [hlen] at hi
    calc i * max_chunk_size L W ≤ (spec_num_tasks L W - 1) * max_chunk_size L W := by
          apply Nat.mul_le_mul_right
          omega
    _ < L := hlb
  refine ⟨rfl, ?_, ?_, ?_, by decide⟩
  · intro i hi
    rw [plan_tasks_get_fst L W i hi, plan_tasks_get_snd L W i hi]
    have := htask i hi
    rcases Nat.le_total (max_chunk_size L W) (L - i * max_chunk_size L W) with h | h
    · rw [Nat.min_eq_left h]
      omega
    · rw [Nat.min_eq_right h]
      omega
  · intro i j hi hj hij
    rw [plan_tasks_get_fst L W i hi, plan_tasks_get_fst L W j hj]
    exact (Nat.mul_lt_mul_right (show 0 < max_chunk_size L W by omega)).mpr hij
  · intro b hb
    have hidx : b / max_chunk_size L W < (plan_tasks L W).length := by
      rw [hlen]
      rw [Nat.div_lt_iff_lt_mul (by omega)]
      omega
    refine ⟨b / max_chunk_size L W, hidx, ?_, ?_⟩
    · rw [plan_tasks_get_fst L W _ hidx, plan_tasks_get_snd L W _ hidx]
      have hdm := Nat.div_add_mod b (max_chunk_size L W)
      have hmod := Nat.mod_lt b (show 0 < max_chunk_size L W by omega)
      rw [Nat.mul_comm (max_chunk_size L W) (b / max_chunk_size L W)] at hdm
      rcases Nat.le_total (max_chunk_size L W)
          (L - b / max_chunk_size L W * max_chunk_size L W) with h | h
      · rw [Nat.min_eq_left h]
        omega
      · rw [Nat.min_eq_right h]
        omega
    · intro j hj hran
      rw [plan_tasks_get_fst L W j hj, plan_tasks_get_snd L W j hj] at hran
      obtain ⟨hr1, hr2⟩ := hran
      have hjL := htask j hj
      have hr2c : b < j * max_chunk_size L W + max_chunk_size L W := by
        rcases Nat.le_total (max_chunk_size L W) (L - j * max_chunk_size L W) with h | h
        · rw [Nat.min_eq_left h] at hr2
          omega
        · rw [Nat.min_eq_right h] at hr2
          omega
      symm
      apply Nat.div_eq_of_lt_le hr1
      calc b < j * max_chunk_size L W + max_chunk_size L W := hr2c
      _ = (j + 1) * max_chunk_size L W := by ring

theorem C4_chunk_plan_partition_witness :
    1 ≤ 1000 ∧ 1 ≤ 3 ∧ plan_tasks 1000 3 = [(0, 334), (334, 334), (668, 332)] :=
  ⟨by decide, by decide,
    (C4_chunk_plan_partition 1000 3 (by decide) (by decide)).2.2.2.2⟩

/-- C5 counterexample: the code does not produce
`ceil(content_length / chunk_size)` tasks.  For `content_length = 6` and
`worker_count = 4` the chunk size is `2` and
`ceil(content_length / chunk_size) = 3`, but `get_num_tasks`
(http.c line 279) returns `threads = 4`. -/
theorem C5_counterexample :
    (get_num_tasks_plan 6 4).2 = 4 ∧
    max_chunk_size 6 4 = 2 ∧
    spec_num_tasks 6 4 = 3 ∧
    (get_num_tasks_plan 6 4).2 ≠ spec_num_tasks 6 4 := by decide

/-- C5 amended: `get_num_tasks` always reports `worker_count` tasks,
regardless of the division; `ceil(content_length / chunk_size)` is at most
`worker_count`, with equality exactly when
`(worker_count - 1) * chunk_size < content_length` (the final of
`worker_count` chunks would be non-empty); when the division leaves the
final chunk empty, the code's task count exceeds
`ceil(content_length / chunk_size)`. -/
theorem C5_amended (L W : Nat) (hL : 1 ≤ L) (hW : 1 ≤ W) :
    (get_num_tasks_plan L W).2 = W ∧
    spec_num_tasks L W ≤ W ∧
    (spec_num_tasks L W = W ↔ (W - 1) * max_chunk_size L W < L) := by
  have hc : 0 < max_chunk_size L W := max_chunk_size_pos L W hL hW
  obtain ⟨hn1, hub, hlb⟩ := spec_num_tasks_bounds L W hL hW
  have hWc : L ≤ W * max_chunk_size L W := by
    have h := le_smul_ceilDiv (show 0 < W by omega) (b := L)
    rw [smul_eq_mul] at h
    exact h
  have hkey : spec_num_tasks L W = L ⌈/⌉ max_chunk_size L W := rfl
  have hle : spec_num_tasks L W ≤ W := by
    rw [hkey, ceilDiv_le_iff_le_smul hc, smul_eq_mul, Nat.mul_comm]
    exact hWc
  refine ⟨rfl, hle, ?_, ?_⟩
  · intro heq
    rw [heq] at hlb
    exact hlb
  · intro hlt
    by_contra hne
    have hlt2 : spec_num_tasks L W ≤ W - 1 := by omega
    have : spec_num_tasks L W * max_chunk_size L W
        ≤ (W - 1) * max_chunk_size L W := Nat.mul_le_mul_right _ hlt2
    omega

theorem C5_amended_witness :
    1 ≤ 6 ∧ 1 ≤ 4 ∧
    ((get_num_tasks_plan 6 4).2 = 4 ∧
      spec_num_tasks 6 4 ≤ 4 ∧
      (spec_num_tasks 6 4 = 4 ↔ (4 - 1) * max_chunk_size 6 4 < 6)) :=
  ⟨by decide, by decide, C5_amended 6 4 (by decide) (by decide)⟩

/-- C6 counterexample: planning does not fail with `InvalidInput` when
`content_length = 0`; `get_num_tasks` has no validation and no error
return at all — for `content_length = 0` and `threads = 3` it sets
`max_chunk_size = (0 + 3 - 1) / 3 = 0` and still returns `3` tasks. -/
theorem C6_counterexample : get_num_tasks_plan 0 3 = (0, 3) := by decide

/-- C6 amended: `get_num_tasks` performs no validation of the discovered
content length or of `threads` and has no error return: for
`content_length = 0` and any `threads ≥ 1` it sets `max_chunk_size = 0`
and returns `threads` tasks.  (For `threads = 0` the C expression
`(content_length + threads - 1) / threads` divides by zero — undefined
behavior that crashes the process rather than reporting `InvalidInput`;
no `InvalidInput` error exists anywhere in the code.) -/
theorem C6_amended (W : Nat) (hW : 1 ≤ W) : get_num_tasks_plan 0 W = (0, W) := by
  unfold get_num_tasks_plan max_chunk_size
  rw [Nat.div_eq_of_lt (by omega)]

theorem C6_amended_witness :
    1 ≤ 3 ∧ get_num_tasks_plan 0 3 = (0, 3) :=
  ⟨by decide, C6_amended 3 (by decide)⟩

/-- Outcome of the response-processing tail of `get_num_tasks`: either
the process terminates via `exit(code)`, or the call returns to its
caller with the values it computed. -/
inductive HeadResult where
  | procExit (code : Nat)
  | ret (content_length : Int) (max_chunk : Int) (num_tasks : Int)
deriving DecidableEq, Repr

/-- C `isspace` (the characters `atoi` skips). -/
def isSpaceChar (c : Char) : Bool :=
  c == ' ' || c == '\t' || c == '\n' || c == '\r' ||
    c == Char.ofNat 11 || c == Char.ofNat 12

/-- Accumulator loop of `atoi`: consume leading decimal digits. -/
def digitsVal (acc : Nat) : List Char → Nat
  | [] => acc
  | c :: rest => if c.isDigit then digitsVal (acc * 10 + (c.toNat - 48)) rest else acc

/-- C `atoi`: skip leading whitespace, optional sign, then leading digits
(0 when there are none); `int` overflow is not modelled. -/
def atoi (s : List Char) : Int :=
  match s.dropWhile isSpaceChar with
  | '-' :: rest => - ((digitsVal 0 rest : Nat) : Int)
  | '+' :: rest => ((digitsVal 0 rest : Nat) : Int)
  | rest => ((digitsVal 0 rest : Nat) : Int)

/-- The header-field name searched for by `get_num_tasks`
(http.c line 264). -/
def content_length_field : List Char := "Content-Length:".toList

/-- Processing of the HEAD response text by `get_num_tasks`
(http.c lines 263-279) after the response has been read: when no
`Content-Length:` field occurs in the response, the code prints an error
and calls `exit(1)`; otherwise it runs `atoi` 16 characters past the
start of the field (16 being the length of the skip string used there),
sets the global `max_chunk_size = (content_length + threads - 1) / threads`
(`Int.tdiv`, like C `int` division, truncates toward zero) and returns
`threads`. -/
def get_num_tasks_head (response : List Char) (threads : Int) : HeadResult :=
  match strstr content_length_field response with
  | none => HeadResult.procExit 1
  | some i =>
      HeadResult.ret (atoi (response.drop (i + 16)))
        (Int.tdiv (atoi (response.drop (i + 16)) + threads - 1) threads) threads

/-- C7 counterexample: on a HEAD response with no `Content-Length` field,
`get_num_tasks` terminates the process via `exit(1)` instead of returning
an error value to its caller. -/
theorem C7_counterexample :
    get_num_tasks_head ("HTTP/1.0 404 Not Found\r\n\r\n".toList) 3
      = HeadResult.procExit 1 := by decide

/-- C7 amended: whenever the HEAD response contains no `Content-Length:`
field, `get_num_tasks` calls `exit(1)` — terminating the process — rather
than returning an error value to its caller; the spec's `Err` return is
not implemented. -/
theorem C7_amended (response : List Char) (threads : Int)
    (h : strstr content_length_field response = none) :
    get_num_tasks_head response threads = HeadResult.procExit 1 := by
  unfold get_num_tasks_head
  rw [h]

theorem C7_amended_witness :
    strstr content_length_field ("HTTP/1.0 200 OK\r\nServer: x\r\n\r\n".toList) = none ∧
    get_num_tasks_head ("HTTP/1.0 200 OK\r\nServer: x\r\n\r\n".toList) 8
      = HeadResult.procExit 1 :=
  ⟨by decide,
    C7_amended ("HTTP/1.0 200 OK\r\nServer: x\r\n\r\n".toList) 8 (by decide)⟩

/-!
Interleaved (concurrent) semantics of `queue_put` / `queue_get`.

Each operation instance is a thread stepping through the statements of the
C function one at a time.  Semaphores are modelled by their counter
values; a `sem_wait` step is enabled only when the counter is positive
(otherwise the thread is blocked and cannot be scheduled).  The statement
pair guarded by the mutex (store/load and index advance, queue.c
lines 98-99 and 121-122) is modelled as one atomic step, which is
faithful precisely because the code performs it while holding the mutex.
A scheduler is a list of thread indices; every interleaving of the calls
corresponds to some such list.
-/

/-- Program counter of one in-flight queue operation.  For a put
(queue.c lines 94-103): before `sem_wait(&sem_write)`, before
`sem_wait(&mutex)`, before the store+advance, before `sem_post(&mutex)`,
before `sem_post(&sem_read)`, done.  For a get (lines 117-128)
symmetrically, carrying the loaded value once it has been read. -/
inductive TState (α : Type) where
  | pW (v : α)
  | pM (v : α)
  | pS (v : α)
  | pPostM (v : α)
  | pPostR (v : α)
  | pDone (v : α)
  | gW
  | gM
  | gL
  | gPostM (r : α)
  | gPostW (r : α)
  | gDone (r : α)
deriving DecidableEq, Repr

/-- Global state of the interleaved system: the queue, the thread states,
and two ghost histories — the values stored into the buffer in store
order (`enq`) and the values loaded from the buffer in load order
(`deq`). -/
structure CState (α : Type) where
  queue : Queue α
  threads : List (TState α)
  enq : List α
  deq : List α

/-- One atomic step of a single operation, from the C statements.  The
result is the new queue state, the new thread state, and the values
appended to the `enq` / `deq` ghost histories.  `none` means the thread
is blocked (a `sem_wait` on a zero semaphore) or finished, or — in the
`gL` case — would load a slot that has never been stored to (which the
invariant below proves unreachable). -/
def threadStep (q : Queue α) : TState α → Option (Queue α × TState α × List α × List α)
  | TState.pW v =>
      if 0 < q.sem_write then
        some ({ q with sem_write := q.sem_write - 1 }, TState.pM v, [], [])
      else none
  | TState.pM v =>
      if 0 < q.mutex then
        some ({ q with mutex := q.mutex - 1 }, TState.pS v, [], [])
      else none
  | TState.pS v =>
      some ({ q with
          elements := fun j => if j = q.write_index then some v else q.elements j,
          write_index := (q.write_index + 1) % q.size },
        TState.pPostM v, [v], [])
  | TState.pPostM v => some ({ q with mutex := q.mutex + 1 }, TState.pPostR v, [], [])
  | TState.pPostR v => some ({ q with sem_read := q.sem_read + 1 }, TState.pDone v, [], [])
  | TState.pDone _ => none
  | TState.gW =>
      if 0 < q.sem_read then
        some ({ q with sem_read := q.sem_read - 1 }, TState.gM, [], [])
      else none
  | TState.gM =>
      if 0 < q.mutex then
        some ({ q with mutex := q.mutex - 1 }, TState.gL, [], [])
      else none
  | TState.gL =>
      match q.elements q.read_index with
      | none => none
      | some r =>
          some ({ q with read_index := (q.read_index + 1) % q.size },
            TState.gPostM r, [], [r])
  | TState.gPostM r => some ({ q with mutex := q.mutex + 1 }, TState.gPostW r, [], [])
  | TState.gPostW r => some ({ q with sem_write := q.sem_write + 1 }, TState.gDone r, [], [])
  | TState.gDone _ => none

/-- Schedule thread `i` for one step. -/
def stepThread (s : CState α) (i : Nat) : Option (CState α) :=
  match s.threads[i]? with
  | none => none
  | some t =>
      match threadStep s.queue t with
      | none => none
      | some (q1, t1, ea, da) =>
          some { queue := q1, threads := s.threads.set i t1,
                 enq := s.enq ++ ea, deq := s.deq ++ da }

/-- Run a schedule (a list of thread indices), one step each. -/
def runSched (s : CState α) : List Nat → Option (CState α)
  | [] => some s
  | i :: rest =>
      match stepThread s i with
      | none => none
      | some s1 => runSched s1 rest

/-- The initial thread state of one operation. -/
def opThread : QOp α → TState α
  | QOp.put v => TState.pW v
  | QOp.get => TState.gW

/-- Initial state: a freshly allocated queue and one thread per
operation, none started. -/
def initCState (α : Type) (size : Int) (ops : List (QOp α)) : CState α :=
  { queue := queue_alloc α size, threads := ops.map opThread, enq := [], deq := [] }

/-- The thread has completed `sem_wait(&sem_write)` (put started). -/
def putStarted : TState α → Bool
  | TState.pM _ | TState.pS _ | TState.pPostM _ | TState.pPostR _ | TState.pDone _ => true
  | _ => false

/-- The thread has performed the store into `elements`. -/
def putWrote : TState α → Bool
  | TState.pPostM _ | TState.pPostR _ | TState.pDone _ => true
  | _ => false

/-- The thread has completed `sem_post(&sem_read)` (put finished). -/
def putPosted : TState α → Bool
  | TState.pDone _ => true
  | _ => false

/-- The thread has completed `sem_wait(&sem_read)` (get started). -/
def getStarted : TState α → Bool
  | TState.gM | TState.gL | TState.gPostM _ | TState.gPostW _ | TState.gDone _ => true
  | _ => false

/-- The thread has performed the load from `elements`. -/
def getRead : TState α → Bool
  | TState.gPostM _ | TState.gPostW _ | TState.gDone _ => true
  | _ => false

/-- The thread has completed `sem_post(&sem_write)` (get finished). -/
def getPosted : TState α → Bool
  | TState.gDone _ => true
  | _ => false

/-- The value a put thread has stored into the buffer, once stored. -/
def putWritten : TState α → Option α
  | TState.pPostM v | TState.pPostR v | TState.pDone v => some v
  | _ => none

/-- The value a get thread has loaded from the buffer, once loaded. -/
def getVal : TState α → Option α
  | TState.gPostM r | TState.gPostW r | TState.gDone r => some r
  | _ => none

/-- The operation a thread is executing (never changes as it steps). -/
def kindOf : TState α → QOp α
  | TState.pW v | TState.pM v | TState.pS v | TState.pPostM v
  | TState.pPostR v | TState.pDone v => QOp.put v
  | _ => QOp.get

/-- The thread has finished its operation. -/
def isDone : TState α → Bool
  | TState.pDone _ | TState.gDone _ => true
  | _ => false

theorem countP_set_balance (p : β → Bool) (l : List β) (i : Nat) (h : i < l.length) (a : β) :
    (l.set i a).countP p + (if p (l.get ⟨i, h⟩) then 1 else 0)
      = l.countP p + (if p a then 1 else 0) := by
  induction l generalizing i with
  | nil => simp at h
  | cons b rest ih =>
    cases i with
    | zero =>
      simp only [List.set_cons_zero, List.countP_cons, List.get_eq_getElem, List.getElem_cons_zero]
      omega
    | succ j =>
      have hj : j < rest.length := by simpa using h
      have := ih j hj
      simp only [List.set_cons_succ, List.countP_cons, List.get_eq_getElem,
        List.getElem_cons_succ] at *
      omega

theorem countP_lt_of_get (p q : β → Bool) (l : List β) (i : Nat) (h : i < l.length)
    (himp : ∀ b ∈ l, q b = true → p b = true)
    (hp : p (l.get ⟨i, h⟩) = true) (hq : q (l.get ⟨i, h⟩) = false) :
    l.countP q < l.countP p := by
  induction l generalizing i with
  | nil => simp at h
  | cons b rest ih =>
    simp only [List.countP_cons]
    cases i with
    | zero =>
      simp only [List.get_eq_getElem, List.getElem_cons_zero] at hp hq
      have hmono : rest.countP q ≤ rest.countP p :=
        List.countP_mono_left (fun x hx => himp x (List.mem_cons_of_mem b hx))
      rw [hp, hq]
      simp
      omega
    | succ j =>
      have hj : j < rest.length := by simpa using h
      simp only [List.get_eq_getElem, List.getElem_cons_succ] at hp hq
      have hrec := ih j hj (fun x hx => himp x (List.mem_cons_of_mem b hx)) hp hq
      by_cases hb : q b = true
      · have hpb := himp b (List.mem_cons_self b rest) hb
        simp [hb, hpb]
        omega
      · simp only [Bool.not_eq_true] at hb
        cases hbp : p b <;> simp [hb, hbp] <;> omega

theorem filterMap_set_congr (f : β → Option γ) (l : List β) (i : Nat) (h : i < l.length)
    (a : β) (heq : f a = f (l.get ⟨i, h⟩)) :
    (l.set i a).filterMap f = l.filterMap f := by
  induction l generalizing i with
  | nil => simp at h
  | cons b rest ih =>
    cases i with
    | zero =>
      simp only [List.get_eq_getElem, List.getElem_cons_zero] at heq
      simp only [List.set_cons_zero, List.filterMap_cons, heq]
    | succ j =>
      have hj : j < rest.length := by simpa using h
      simp only [List.get_eq_getElem, List.getElem_cons_succ] at heq
      simp only [List.set_cons_succ, List.filterMap_cons, ih j hj heq]

theorem filterMap_set_perm (f : β → Option γ) (l : List β) (i : Nat) (h : i < l.length)
    (a : β) (r : γ) (hold : f (l.get ⟨i, h⟩) = none) (hnew : f a = some r) :
    ((l.set i a).filterMap f).Perm (r :: l.filterMap f) := by
  induction l generalizing i with
  | nil => simp at h
  | cons b rest ih =>
    cases i with
    | zero =>
      simp only [List.get_eq_getElem, List.getElem_cons_zero] at hold
      simp only [List.set_cons_zero, List.filterMap_cons, hold, hnew]
      exact List.Perm.refl _
    | succ j =>
      have hj : j < rest.length := by simpa using h
      simp only [List.get_eq_getElem, List.getElem_cons_succ] at hold
      have hperm := ih j hj hold
      simp only [List.set_cons_succ, List.filterMap_cons]
      cases hfb : f b with
      | none => simpa [hfb] using hperm
      | some c =>
        simp only [hfb]
        exact (hperm.cons c).trans (List.Perm.swap r c _)

theorem map_set_congr (f : β → γ) (l : List β) (i : Nat) (h : i < l.length)
    (a : β) (heq : f a = f (l.get ⟨i, h⟩)) :
    (l.set i a).map f = l.map f := by
  induction l generalizing i with
  | nil => simp at h
  | cons b rest ih =>
    cases i with
    | zero =>
      simp only [List.get_eq_getElem, List.getElem_cons_zero] at heq
      simp only [List.set_cons_zero, List.map_cons, heq]
    | succ j =>
      have hj : j < rest.length := by simpa using h
      simp only [List.get_eq_getElem, List.getElem_cons_succ] at heq
      simp only [List.set_cons_succ, List.map_cons, ih j hj heq]

/-- Inductive invariant of the interleaved system, over an initial
operation list `ops`.  `enq`/`deq` are the ghost store/load histories;
the semaphore counters are determined by how many threads have passed
the corresponding `sem_wait`/`sem_post`; the circular buffer holds the
stored-but-not-yet-loaded values at the expected slots; and the
loaded values are exactly the first stored values, in order. -/
structure CInv (ops : List (QOp α)) (s : CState α) : Prop where
  hsz : 1 ≤ s.queue.size
  hkind : s.threads.map kindOf = ops
  hsr : s.queue.sem_read
      = (s.threads.countP putPosted : Int) - (s.threads.countP getStarted : Int)
  hsr0 : 0 ≤ s.queue.sem_read
  hsw : s.queue.sem_write
      = s.queue.size - (s.threads.countP putStarted : Int)
        + (s.threads.countP getPosted : Int)
  hsw0 : 0 ≤ s.queue.sem_write
  hW : s.enq.length = s.threads.countP putWrote
  hR : s.deq.length = s.threads.countP getRead
  hwi : s.queue.write_index = (s.enq.length : Int) % s.queue.size
  hri : s.queue.read_index = (s.deq.length : Int) % s.queue.size
  hRW : s.deq.length ≤ s.enq.length
  hbuf : ∀ k, (hk : k < s.enq.length) → s.deq.length ≤ k →
      s.queue.elements ((k : Int) % s.queue.size) = some (s.enq.get ⟨k, hk⟩)
  hdeq : s.deq = s.enq.take s.deq.length
  hpw : (s.threads.filterMap putWritten).Perm s.enq
  hgv : (s.threads.filterMap getVal).Perm s.deq

theorem kindOf_opThread (op : QOp α) : kindOf (opThread op) = op := by
  cases op <;> rfl

theorem putWrote_imp_putStarted (t : TState α) :
    putWrote t = true → putStarted t = true := by
  cases t <;> simp [putWrote, putStarted]

theorem putPosted_imp_putWrote (t : TState α) :
    putPosted t = true → putWrote t = true := by
  cases t <;> simp [putPosted, putWrote]

theorem getRead_imp_getStarted (t : TState α) :
    getRead t = true → getStarted t = true := by
  cases t <;> simp [getRead, getStarted]

theorem getPosted_imp_getRead (t : TState α) :
    getPosted t = true → getRead t = true := by
  cases t <;> simp [getPosted, getRead]

theorem CInv_init (α : Type) (sz : Int) (ops : List (QOp α)) (hsz : 1 ≤ sz) :
    CInv ops (initCState α sz ops) := by
  have hcount : ∀ p : TState α → Bool, (∀ op : QOp α, p (opThread op) = false) →
      (ops.map opThread).countP p = 0 := by
    intro p hp
    rw [List.countP_eq_zero]
    intro t ht
    rw [List.mem_map] at ht
    obtain ⟨op, _, rfl⟩ := ht
    simp [hp op]
  have hfm : ∀ f : TState α → Option α, (∀ op : QOp α, f (opThread op) = none) →
      (ops.map opThread).filterMap f = [] := by
    intro f hf
    rw [List.filterMap_eq_nil_iff]
    intro t ht
    rw [List.mem_map] at ht
    obtain ⟨op, _, rfl⟩ := ht
    simp [hf op]
  unfold initCState queue_alloc
  refine ⟨hsz, ?_, ?_, ?_, ?_, ?_, ?_, ?_, ?_, ?_, ?_, ?_, ?_, ?_, ?_⟩
  · rw [List.map_map]
    have : (kindOf ∘ opThread : QOp α → QOp α) = id := by
      funext op
      simp [kindOf_opThread]
    rw [this, List.map_id]
  · show (0 : Int) = _
    rw [hcount putPosted (by intro op; cases op <;> rfl),
      hcount getStarted (by intro op; cases op <;> rfl)]
    simp
  · exact le_refl 0
  · show sz = _
    rw [hcount putStarted (by intro op; cases op <;> rfl),
      hcount getPosted (by intro op; cases op <;> rfl)]
    simp
  · show 0 ≤ sz
    omega
  · show (0 : Nat) = _
    rw [hcount putWrote (by intro op; cases op <;> rfl)]
  · show (0 : Nat) = _
    rw [hcount getRead (by intro op; cases op <;> rfl)]
  · show (0 : Int) = ((0 : Nat) : Int) % sz
    simp
  · show (0 : Int) = ((0 : Nat) : Int) % sz
    simp
  · exact le_refl 0
  · intro k hk
    simp at hk
  · rfl
  · rw [hfm putWritten (by intro op; cases op <;> rfl)]
  · rw [hfm getVal (by intro op; cases op <;> rfl)]

theorem countP_set_eq_of_eq (p : β → Bool) (l : List β) (i : Nat) (h : i < l.length)
    (a : β) (heq : p a = p (l.get ⟨i, h⟩)) :
    (l.set i a).countP p = l.countP p := by
  have hb := countP_set_balance p l i h a
  rw [heq] at hb
  exact Nat.add_right_cancel hb

theorem countP_set_eq_succ (p : β → Bool) (l : List β) (i : Nat) (h : i < l.length)
    (a : β) (hold : p (l.get ⟨i, h⟩) = false) (hnew : p a = true) :
    (l.set i a).countP p = l.countP p + 1 := by
  have hb := countP_set_balance p l i h a
  rw [hold, hnew] at hb
  simpa using hb

/-- A step that leaves the buffer, the indexes and the store/load
histories untouched (the `sem_wait`/`sem_post` steps) preserves the
invariant, given the new semaphore accounting. -/
theorem CInv_step_congr (ops : List (QOp α)) (s : CState α) (i : Nat)
    (hlt : i < s.threads.length) (t1 : TState α) (q1 : Queue α)
    (hq_size : q1.size = s.queue.size)
    (hq_elems : q1.elements = s.queue.elements)
    (hq_wi : q1.write_index = s.queue.write_index)
    (hq_ri : q1.read_index = s.queue.read_index)
    (hkind1 : kindOf t1 = kindOf (s.threads.get ⟨i, hlt⟩))
    (hpw1 : putWritten t1 = putWritten (s.threads.get ⟨i, hlt⟩))
    (hgv1 : getVal t1 = getVal (s.threads.get ⟨i, hlt⟩))
    (hwrote : putWrote t1 = putWrote (s.threads.get ⟨i, hlt⟩))
    (hread : getRead t1 = getRead (s.threads.get ⟨i, hlt⟩))
    (hInv : CInv ops s)
    (hsr1 : q1.sem_read
        = ((s.threads.set i t1).countP putPosted : Int)
          - ((s.threads.set i t1).countP getStarted : Int))
    (hsr01 : 0 ≤ q1.sem_read)
    (hsw1 : q1.sem_write
        = q1.size - ((s.threads.set i t1).countP putStarted : Int)
          + ((s.threads.set i t1).countP getPosted : Int))
    (hsw01 : 0 ≤ q1.sem_write) :
    CInv ops { queue := q1, threads := s.threads.set i t1,
               enq := s.enq, deq := s.deq } := by
  have hcW := countP_set_eq_of_eq putWrote s.threads i hlt t1 hwrote
  have hcR := countP_set_eq_of_eq getRead s.threads i hlt t1 hread
  refine ⟨?_, ?_, hsr1, hsr01, hsw1, hsw01, ?_, ?_, ?_, ?_, ?_, ?_, ?_, ?_, ?_⟩
  · show 1 ≤ q1.size
    rw [hq_size]
    exact hInv.hsz
  · show (s.threads.set i t1).map kindOf = ops
    rw [map_set_congr kindOf s.threads i hlt t1 hkind1]
    exact hInv.hkind
  · show s.enq.length = (s.threads.set i t1).countP putWrote
    rw [hcW]
    exact hInv.hW
  · show s.deq.length = (s.threads.set i t1).countP getRead
    rw [hcR]
    exact hInv.hR
  · show q1.write_index = (s.enq.length : Int) % q1.size
    rw [hq_wi, hq_size]
    exact hInv.hwi
  · show q1.read_index = (s.deq.length : Int) % q1.size
    rw [hq_ri, hq_size]
    exact hInv.hri
  · exact hInv.hRW
  · intro k hk hk2
    show q1.elements ((k : Int) % q1.size) = _
    rw [hq_elems, hq_size]
    exact hInv.hbuf k hk hk2
  · exact hInv.hdeq
  · show ((s.threads.set i t1).filterMap putWritten).Perm s.enq
    rw [filterMap_set_congr putWritten s.threads i hlt t1 hpw1]
    exact hInv.hpw
  · show ((s.threads.set i t1).filterMap getVal).Perm s.deq
    rw [filterMap_set_congr getVal s.threads i hlt t1 hgv1]
    exact hInv.hgv

/-- Any enabled step of any thread preserves the invariant. -/
theorem threadStep_preserve (ops : List (QOp α)) (s : CState α) (i : Nat)
    (hlt : i < s.threads.length) (q1 : Queue α) (t1 : TState α) (ea da : List α)
    (hstep : threadStep s.queue (s.threads.get ⟨i, hlt⟩) = some (q1, t1, ea, da))
    (hInv : CInv ops s) :
    CInv ops { queue := q1, threads := s.threads.set i t1,
               enq := s.enq ++ ea, deq := s.deq ++ da } := by
  cases htv : s.threads.get ⟨i, hlt⟩ with
  | pW v =>
    rw [htv] at hstep
    simp only [threadStep] at hstep
    split at hstep
    · rename_i hguard
      simp only [Option.some.injEq, Prod.mk.injEq] at hstep
      obtain ⟨hq, ht1, hea, hda⟩ := hstep
      subst hq ht1 hea hda
      simp only [List.append_nil]
      refine CInv_step_congr ops s i hlt (TState.pM v) _ rfl rfl rfl rfl
        (by simp only [htv, kindOf]) (by simp only [htv, putWritten]) (by simp only [htv, getVal])
        (by simp only [htv, putWrote]) (by simp only [htv, getRead]) hInv ?_ ?_ ?_ ?_
      · show s.queue.sem_read = _
        rw [countP_set_eq_of_eq putPosted s.threads i hlt _ (by simp only [htv, putPosted]),
          countP_set_eq_of_eq getStarted s.threads i hlt _ (by simp only [htv, getStarted])]
        exact hInv.hsr
      · exact hInv.hsr0
      · show s.queue.sem_write - 1 = _
        rw [countP_set_eq_succ putStarted s.threads i hlt _ (by simp only [htv, putStarted]) (by rfl),
          countP_set_eq_of_eq getPosted s.threads i hlt _ (by simp only [htv, getPosted])]
        have h := hInv.hsw
        push_cast
        push_cast at h
        omega
      · show 0 ≤ s.queue.sem_write - 1
        omega
    · exact Option.noConfusion hstep
  | pM v =>
    rw [htv] at hstep
    simp only [threadStep] at hstep
    split at hstep
    · rename_i hguard
      simp only [Option.some.injEq, Prod.mk.injEq] at hstep
      obtain ⟨hq, ht1, hea, hda⟩ := hstep
      subst hq ht1 hea hda
      simp only [List.append_nil]
      refine CInv_step_congr ops s i hlt (TState.pS v) _ rfl rfl rfl rfl
        (by simp only [htv, kindOf]) (by simp only [htv, putWritten]) (by simp only [htv, getVal])
        (by simp only [htv, putWrote]) (by simp only [htv, getRead]) hInv ?_ ?_ ?_ ?_
      · show s.queue.sem_read = _
        rw [countP_set_eq_of_eq putPosted s.threads i hlt _ (by simp only [htv, putPosted]),
          countP_set_eq_of_eq getStarted s.threads i hlt _ (by simp only [htv, getStarted])]
        exact hInv.hsr
      · exact hInv.hsr0
      · show s.queue.sem_write = _
        rw [countP_set_eq_of_eq putStarted s.threads i hlt _ (by simp only [htv, putStarted]),
          countP_set_eq_of_eq getPosted s.threads i hlt _ (by simp only [htv, getPosted])]
        exact hInv.hsw
      · exact hInv.hsw0
    · exact Option.noConfusion hstep
  | pS v =>
    rw [htv] at hstep
    simp only [threadStep] at hstep
    simp only [Option.some.injEq, Prod.mk.injEq] at hstep
    obtain ⟨hq, ht1, hea, hda⟩ := hstep
    subst hq ht1 hea hda
    have hcS := countP_set_eq_of_eq putStarted s.threads i hlt (TState.pPostM v)
      (by simp only [htv, putStarted])
    have hcP := countP_set_eq_of_eq putPosted s.threads i hlt (TState.pPostM v)
      (by simp only [htv, putPosted])
    have hcGS := countP_set_eq_of_eq getStarted s.threads i hlt (TState.pPostM v)
      (by simp only [htv, getStarted])
    have hcGR := countP_set_eq_of_eq getRead s.threads i hlt (TState.pPostM v)
      (by simp only [htv, getRead])
    have hcGP := countP_set_eq_of_eq getPosted s.threads i hlt (TState.pPostM v)
      (by simp only [htv, getPosted])
    have hcW := countP_set_eq_succ putWrote s.threads i hlt (TState.pPostM v)
      (by simp only [htv, putWrote]) rfl
    have hstrict : s.threads.countP putWrote < s.threads.countP putStarted :=
      countP_lt_of_get putStarted putWrote s.threads i hlt
        (fun b _ => putWrote_imp_putStarted b) (by simp only [htv, putStarted])
        (by simp only [htv, putWrote])
    have hmono : s.threads.countP getPosted ≤ s.threads.countP getRead :=
      List.countP_mono_left (fun b _ => getPosted_imp_getRead b)
    have hWR : (s.enq.length : Int) - (s.deq.length : Int) < s.queue.size := by
      have h1 := hInv.hsw
      have h2 := hInv.hsw0
      rw [hInv.hW, hInv.hR]
      omega
    have hmap := map_set_congr kindOf s.threads i hlt (TState.pPostM v) (by simp only [htv, kindOf])
    have hgvc := filterMap_set_congr getVal s.threads i hlt (TState.pPostM v)
      (by simp only [htv, getVal])
    have hfp := filterMap_set_perm putWritten s.threads i hlt (TState.pPostM v) v
      (by simp only [htv, putWritten]) rfl
    refine ⟨?_, ?_, ?_, ?_, ?_, ?_, ?_, ?_, ?_, ?_, ?_, ?_, ?_, ?_, ?_⟩
    · show 1 ≤ s.queue.size
      exact hInv.hsz
    · show (s.threads.set i (TState.pPostM v)).map kindOf = ops
      rw [hmap]
      exact hInv.hkind
    · show s.queue.sem_read = _
      rw [hcP, hcGS]
      exact hInv.hsr
    · exact hInv.hsr0
    · show s.queue.sem_write = _
      rw [hcS, hcGP]
      exact hInv.hsw
    · exact hInv.hsw0
    · show (s.enq ++ [v]).length = _
      rw [hcW, List.length_append]
      simp [hInv.hW]
    · show (s.deq ++ []).length = _
      rw [hcGR, List.append_nil]
      exact hInv.hR
    · show (s.queue.write_index + 1) % s.queue.size
        = ((s.enq ++ [v]).length : Int) % s.queue.size
      rw [hInv.hwi, emod_add_left_cancel, List.length_append]
      congr 1
    · show s.queue.read_index = ((s.deq ++ []).length : Int) % s.queue.size
      rw [List.append_nil]
      exact hInv.hri
    · show (s.deq ++ []).length ≤ (s.enq ++ [v]).length
      rw [List.append_nil, List.length_append]
      have := hInv.hRW
      omega
    · intro k hk hk2
      have hk' : k < s.enq.length + 1 := by simpa using hk
      have hk2' : s.deq.length ≤ k := by simpa using hk2
      show (if ((k : Int) % s.queue.size) = s.queue.write_index then some v
            else s.queue.elements ((k : Int) % s.queue.size)) = some ((s.enq ++ [v]).get ⟨k, hk⟩)
      rcases Nat.lt_or_ge k s.enq.length with hklt | hkge
      · rw [if_neg, hInv.hbuf k hklt hk2']
        · simp only [List.get_eq_getElem]
          congr 1
          exact (List.getElem_append_left hklt).symm
        · rw [hInv.hwi]
          apply emod_ne_of_lt _ _ _ (by have := hInv.hsz; omega)
          · omega
          · omega
      · have hkeq : k = s.enq.length := by omega
        subst hkeq
        rw [if_pos (by rw [hInv.hwi])]
        simp [List.get_eq_getElem]
    · show s.deq ++ [] = (s.enq ++ [v]).take (s.deq ++ []).length
      rw [List.append_nil, List.take_append_of_le_length hInv.hRW]
      exact hInv.hdeq
    · show ((s.threads.set i (TState.pPostM v)).filterMap putWritten).Perm (s.enq ++ [v])
      exact hfp.trans ((hInv.hpw.cons v).trans (List.perm_append_singleton v s.enq).symm)
    · show ((s.threads.set i (TState.pPostM v)).filterMap getVal).Perm (s.deq ++ [])
      rw [hgvc, List.append_nil]
      exact hInv.hgv
  | pPostM v =>
    rw [htv] at hstep
    simp only [threadStep] at hstep
    simp only [Option.some.injEq, Prod.mk.injEq] at hstep
    obtain ⟨hq, ht1, hea, hda⟩ := hstep
    subst hq ht1 hea hda
    simp only [List.append_nil]
    refine CInv_step_congr ops s i hlt (TState.pPostR v) _ rfl rfl rfl rfl
      (by simp only [htv, kindOf]) (by simp only [htv, putWritten]) (by simp only [htv, getVal])
      (by simp only [htv, putWrote]) (by simp only [htv, getRead]) hInv ?_ ?_ ?_ ?_
    · show s.queue.sem_read = _
      rw [countP_set_eq_of_eq putPosted s.threads i hlt _ (by simp only [htv, putPosted]),
        countP_set_eq_of_eq getStarted s.threads i hlt _ (by simp only [htv, getStarted])]
      exact hInv.hsr
    · exact hInv.hsr0
    · show s.queue.sem_write = _
      rw [countP_set_eq_of_eq putStarted s.threads i hlt _ (by simp only [htv, putStarted]),
        countP_set_eq_of_eq getPosted s.threads i hlt _ (by simp only [htv, getPosted])]
      exact hInv.hsw
    · exact hInv.hsw0
  | pPostR v =>
    rw [htv] at hstep
    simp only [threadStep] at hstep
    simp only [Option.some.injEq, Prod.mk.injEq] at hstep
    obtain ⟨hq, ht1, hea, hda⟩ := hstep
    subst hq ht1 hea hda
    simp only [List.append_nil]
    refine CInv_step_congr ops s i hlt (TState.pDone v) _ rfl rfl rfl rfl
      (by simp only [htv, kindOf]) (by simp only [htv, putWritten]) (by simp only [htv, getVal])
      (by simp only [htv, putWrote]) (by simp only [htv, getRead]) hInv ?_ ?_ ?_ ?_
    · show s.queue.sem_read + 1 = _
      rw [countP_set_eq_succ putPosted s.threads i hlt _ (by simp only [htv, putPosted]) (by rfl),
        countP_set_eq_of_eq getStarted s.threads i hlt _ (by simp only [htv, getStarted])]
      have h := hInv.hsr
      push_cast
      push_cast at h
      omega
    · show 0 ≤ s.queue.sem_read + 1
      have := hInv.hsr0
      omega
    · show s.queue.sem_write = _
      rw [countP_set_eq_of_eq putStarted s.threads i hlt _ (by simp only [htv, putStarted]),
        countP_set_eq_of_eq getPosted s.threads i hlt _ (by simp only [htv, getPosted])]
      exact hInv.hsw
    · exact hInv.hsw0
  | pDone v =>
    rw [htv] at hstep
    simp only [threadStep] at hstep
    exact Option.noConfusion hstep
  | gW =>
    rw [htv] at hstep
    simp only [threadStep] at hstep
    split at hstep
    · rename_i hguard
      simp only [Option.some.injEq, Prod.mk.injEq] at hstep
      obtain ⟨hq, ht1, hea, hda⟩ := hstep
      subst hq ht1 hea hda
      simp only [List.append_nil]
      refine CInv_step_congr ops s i hlt TState.gM _ rfl rfl rfl rfl
        (by simp only [htv, kindOf]) (by simp only [htv, putWritten]) (by simp only [htv, getVal])
        (by simp only [htv, putWrote]) (by simp only [htv, getRead]) hInv ?_ ?_ ?_ ?_
      · show s.queue.sem_read - 1 = _
        rw [countP_set_eq_of_eq putPosted s.threads i hlt _ (by simp only [htv, putPosted]),
          countP_set_eq_succ getStarted s.threads i hlt _ (by simp only [htv, getStarted]) (by rfl)]
        have h := hInv.hsr
        push_cast
        push_cast at h
        omega
      · show 0 ≤ s.queue.sem_read - 1
        omega
      · show s.queue.sem_write = _
        rw [countP_set_eq_of_eq putStarted s.threads i hlt _ (by simp only [htv, putStarted]),
          countP_set_eq_of_eq getPosted s.threads i hlt _ (by simp only [htv, getPosted])]
        exact hInv.hsw
      · exact hInv.hsw0
    · exact Option.noConfusion hstep
  | gM =>
    rw [htv] at hstep
    simp only [threadStep] at hstep
    split at hstep
    · rename_i hguard
      simp only [Option.some.injEq, Prod.mk.injEq] at hstep
      obtain ⟨hq, ht1, hea, hda⟩ := hstep
      subst hq ht1 hea hda
      simp only [List.append_nil]
      refine CInv_step_congr ops s i hlt TState.gL _ rfl rfl rfl rfl
        (by simp only [htv, kindOf]) (by simp only [htv, putWritten]) (by simp only [htv, getVal])
        (by simp only [htv, putWrote]) (by simp only [htv, getRead]) hInv ?_ ?_ ?_ ?_
      · show s.queue.sem_read = _
        rw [countP_set_eq_of_eq putPosted s.threads i hlt _ (by simp only [htv, putPosted]),
          countP_set_eq_of_eq getStarted s.threads i hlt _ (by simp only [htv, getStarted])]
        exact hInv.hsr
      · exact hInv.hsr0
      · show s.queue.sem_write = _
        rw [countP_set_eq_of_eq putStarted s.threads i hlt _ (by simp only [htv, putStarted]),
          countP_set_eq_of_eq getPosted s.threads i hlt _ (by simp only [htv, getPosted])]
        exact hInv.hsw
      · exact hInv.hsw0
    · exact Option.noConfusion hstep
  | gL =>
    rw [htv] at hstep
    simp only [threadStep] at hstep
    split at hstep
    · exact Option.noConfusion hstep
    · rename_i r0 hel
      simp only [Option.some.injEq, Prod.mk.injEq] at hstep
      obtain ⟨hq, ht1, hea, hda⟩ := hstep
      subst hq ht1 hea hda
      have hcS := countP_set_eq_of_eq putStarted s.threads i hlt (TState.gPostM r0)
        (by simp only [htv, putStarted])
      have hcP := countP_set_eq_of_eq putPosted s.threads i hlt (TState.gPostM r0)
        (by simp only [htv, putPosted])
      have hcGS := countP_set_eq_of_eq getStarted s.threads i hlt (TState.gPostM r0)
        (by simp only [htv, getStarted])
      have hcGP := countP_set_eq_of_eq getPosted s.threads i hlt (TState.gPostM r0)
        (by simp only [htv, getPosted])
      have hcWr := countP_set_eq_of_eq putWrote s.threads i hlt (TState.gPostM r0)
        (by simp only [htv, putWrote])
      have hcGR := countP_set_eq_succ getRead s.threads i hlt (TState.gPostM r0)
        (by simp only [htv, getRead]) rfl
      have hstrict : s.threads.countP getRead < s.threads.countP getStarted :=
        countP_lt_of_get getStarted getRead s.threads i hlt
          (fun b _ => getRead_imp_getStarted b) (by simp only [htv, getStarted])
          (by simp only [htv, getRead])
      have hmono : s.threads.countP putPosted ≤ s.threads.countP putWrote :=
        List.countP_mono_left (fun b _ => putPosted_imp_putWrote b)
      have hRW2 : s.deq.length < s.enq.length := by
        have h1 := hInv.hsr
        have h2 := hInv.hsr0
        rw [hInv.hR, hInv.hW]
        push_cast at h1
        omega
      have hr0 : r0 = s.enq.get ⟨s.deq.length, hRW2⟩ := by
        have hb := hInv.hbuf s.deq.length hRW2 (le_refl _)
        rw [← hInv.hri] at hb
        rw [hel] at hb
        simpa using hb
      have hmap := map_set_congr kindOf s.threads i hlt (TState.gPostM r0)
        (by simp only [htv, kindOf])
      have hpwc := filterMap_set_congr putWritten s.threads i hlt (TState.gPostM r0)
        (by simp only [htv, putWritten])
      have hfg := filterMap_set_perm getVal s.threads i hlt (TState.gPostM r0) r0
        (by simp only [htv, getVal]) rfl
      refine ⟨?_, ?_, ?_, ?_, ?_, ?_, ?_, ?_, ?_, ?_, ?_, ?_, ?_, ?_, ?_⟩
      · show 1 ≤ s.queue.size
        exact hInv.hsz
      · show (s.threads.set i (TState.gPostM r0)).map kindOf = ops
        rw [hmap]
        exact hInv.hkind
      · show s.queue.sem_read = _
        rw [hcP, hcGS]
        exact hInv.hsr
      · exact hInv.hsr0
      · show s.queue.sem_write = _
        rw [hcS, hcGP]
        exact hInv.hsw
      · exact hInv.hsw0
      · show (s.enq ++ []).length = _
        rw [hcWr, List.append_nil]
        exact hInv.hW
      · show (s.deq ++ [r0]).length = _
        rw [hcGR, List.length_append]
        simp [hInv.hR]
      · show s.queue.write_index = ((s.enq ++ []).length : Int) % s.queue.size
        rw [List.append_nil]
        exact hInv.hwi
      · show (s.queue.read_index + 1) % s.queue.size
          = ((s.deq ++ [r0]).length : Int) % s.queue.size
        rw [hInv.hri, emod_add_left_cancel, List.length_append]
        congr 1
      · show (s.deq ++ [r0]).length ≤ (s.enq ++ []).length
        rw [List.append_nil, List.length_append]
        simp
        omega
      · intro k hk hk2
        have hk' : k < s.enq.length := by simpa using hk
        have hk2' : s.deq.length + 1 ≤ k := by simpa using hk2
        show s.queue.elements ((k : Int) % s.queue.size) = some ((s.enq ++ []).get ⟨k, hk⟩)
        rw [hInv.hbuf k hk' (by omega)]
        simp [List.get_eq_getElem]
      · show s.deq ++ [r0] = (s.enq ++ []).take (s.deq ++ [r0]).length
        rw [List.append_nil, List.length_append]
        simp only [List.length_cons, List.length_nil]
        rw [show s.deq.length + (0 + 1) = s.deq.length + 1 by omega, List.take_succ]
        rw [List.getElem?_eq_getElem hRW2]
        simp only [Option.toList_some]
        rw [← hInv.hdeq, hr0]
        simp [List.get_eq_getElem]
      · show ((s.threads.set i (TState.gPostM r0)).filterMap putWritten).Perm (s.enq ++ [])
        rw [hpwc, List.append_nil]
        exact hInv.hpw
      · show ((s.threads.set i (TState.gPostM r0)).filterMap getVal).Perm (s.deq ++ [r0])
        exact hfg.trans ((hInv.hgv.cons r0).trans (List.perm_append_singleton r0 s.deq).symm)
  | gPostM r =>
    rw [htv] at hstep
    simp only [threadStep] at hstep
    simp only [Option.some.injEq, Prod.mk.injEq] at hstep
    obtain ⟨hq, ht1, hea, hda⟩ := hstep
    subst hq ht1 hea hda
    simp only [List.append_nil]
    refine CInv_step_congr ops s i hlt (TState.gPostW r) _ rfl rfl rfl rfl
      (by simp only [htv, kindOf]) (by simp only [htv, putWritten]) (by simp only [htv, getVal])
      (by simp only [htv, putWrote]) (by simp only [htv, getRead]) hInv ?_ ?_ ?_ ?_
    · show s.queue.sem_read = _
      rw [countP_set_eq_of_eq putPosted s.threads i hlt _ (by simp only [htv, putPosted]),
        countP_set_eq_of_eq getStarted s.threads i hlt _ (by simp only [htv, getStarted])]
      exact hInv.hsr
    · exact hInv.hsr0
    · show s.queue.sem_write = _
      rw [countP_set_eq_of_eq putStarted s.threads i hlt _ (by simp only [htv, putStarted]),
        countP_set_eq_of_eq getPosted s.threads i hlt _ (by simp only [htv, getPosted])]
      exact hInv.hsw
    · exact hInv.hsw0
  | gPostW r =>
    rw [htv] at hstep
    simp only [threadStep] at hstep
    simp only [Option.some.injEq, Prod.mk.injEq] at hstep
    obtain ⟨hq, ht1, hea, hda⟩ := hstep
    subst hq ht1 hea hda
    simp only [List.append_nil]
    refine CInv_step_congr ops s i hlt (TState.gDone r) _ rfl rfl rfl rfl
      (by simp only [htv, kindOf]) (by simp only [htv, putWritten]) (by simp only [htv, getVal])
      (by simp only [htv, putWrote]) (by simp only [htv, getRead]) hInv ?_ ?_ ?_ ?_
    · show s.queue.sem_read = _
      rw [countP_set_eq_of_eq putPosted s.threads i hlt _ (by simp only [htv, putPosted]),
        countP_set_eq_of_eq getStarted s.threads i hlt _ (by simp only [htv, getStarted])]
      exact hInv.hsr
    · exact hInv.hsr0
    · show s.queue.sem_write + 1 = _
      rw [countP_set_eq_of_eq putStarted s.threads i hlt _ (by simp only [htv, putStarted]),
        countP_set_eq_succ getPosted s.threads i hlt _ (by simp only [htv, getPosted]) (by rfl)]
      have h := hInv.hsw
      push_cast
      push_cast at h
      omega
    · show 0 ≤ s.queue.sem_write + 1
      have := hInv.hsw0
      omega
  | gDone r =>
    rw [htv] at hstep
    simp only [threadStep] at hstep
    exact Option.noConfusion hstep

theorem stepThread_inv (ops : List (QOp α)) (s s1 : CState α) (i : Nat)
    (hstep : stepThread s i = some s1) (hInv : CInv ops s) : CInv ops s1 := by
  unfold stepThread at hstep
  split at hstep
  · exact Option.noConfusion hstep
  · rename_i t hti
    split at hstep
    · exact Option.noConfusion hstep
    · rename_i q1 t1 ea da hts
      simp only [Option.some.injEq] at hstep
      subst hstep
      obtain ⟨hlt, hgeti⟩ := List.getElem?_eq_some.mp hti
      apply threadStep_preserve ops s i hlt q1 t1 ea da _ hInv
      rw [List.get_eq_getElem, hgeti]
      exact hts

theorem runSched_inv (ops : List (QOp α)) (choices : List Nat) (s final : CState α)
    (hrun : runSched s choices = some final) (hInv : CInv ops s) : CInv ops final := by
  induction choices generalizing s with
  | nil =>
    simp only [runSched, Option.some.injEq] at hrun
    subst hrun
    exact hInv
  | cons c rest ih =>
    unfold runSched at hrun
    split at hrun
    · exact Option.noConfusion hrun
    · rename_i s1 hstep
      exact ih s1 hrun (stepThread_inv ops s s1 c hstep hInv)

/-- Every thread has finished its operation. -/
def allDone (l : List (TState α)) : Bool := l.all isDone

theorem filterMap_putWritten_done (l : List (TState α)) (hdone : l.all isDone = true) :
    l.filterMap putWritten = putValues (l.map kindOf) := by
  induction l with
  | nil => rfl
  | cons t rest ih =>
    simp only [List.all_cons, Bool.and_eq_true] at hdone
    cases t with
    | pW v => simp [isDone] at hdone
    | pM v => simp [isDone] at hdone
    | pS v => simp [isDone] at hdone
    | pPostM v => simp [isDone] at hdone
    | pPostR v => simp [isDone] at hdone
    | pDone v =>
      simp only [List.filterMap_cons, putWritten, List.map_cons, kindOf, putValues]
      rw [ih hdone.2]
    | gW => simp [isDone] at hdone
    | gM => simp [isDone] at hdone
    | gL => simp [isDone] at hdone
    | gPostM r => simp [isDone] at hdone
    | gPostW r => simp [isDone] at hdone
    | gDone r =>
      simp only [List.filterMap_cons, putWritten, List.map_cons, kindOf, putValues]
      rw [ih hdone.2]

theorem countP_getRead_done (l : List (TState α)) (hdone : l.all isDone = true) :
    l.countP getRead = numGets (l.map kindOf) := by
  induction l with
  | nil => rfl
  | cons t rest ih =>
    simp only [List.all_cons, Bool.and_eq_true] at hdone
    cases t with
    | pW v => simp [isDone] at hdone
    | pM v => simp [isDone] at hdone
    | pS v => simp [isDone] at hdone
    | pPostM v => simp [isDone] at hdone
    | pPostR v => simp [isDone] at hdone
    | pDone v =>
      simp [List.countP_cons, getRead, List.map_cons, kindOf, numGets, ih hdone.2]
    | gW => simp [isDone] at hdone
    | gM => simp [isDone] at hdone
    | gL => simp [isDone] at hdone
    | gPostM r => simp [isDone] at hdone
    | gPostW r => simp [isDone] at hdone
    | gDone r =>
      simp [List.countP_cons, getRead, List.map_cons, kindOf, numGets, ih hdone.2]

theorem countP_putWrote_done (l : List (TState α)) (hdone : l.all isDone = true) :
    l.countP putWrote = (putValues (l.map kindOf)).length := by
  induction l with
  | nil => rfl
  | cons t rest ih =>
    simp only [List.all_cons, Bool.and_eq_true] at hdone
    cases t with
    | pW v => simp [isDone] at hdone
    | pM v => simp [isDone] at hdone
    | pS v => simp [isDone] at hdone
    | pPostM v => simp [isDone] at hdone
    | pPostR v => simp [isDone] at hdone
    | pDone v =>
      simp [List.countP_cons, putWrote, List.map_cons, kindOf, putValues, ih hdone.2]
    | gW => simp [isDone] at hdone
    | gM => simp [isDone] at hdone
    | gL => simp [isDone] at hdone
    | gPostM r => simp [isDone] at hdone
    | gPostW r => simp [isDone] at hdone
    | gDone r =>
      simp [List.countP_cons, putWrote, List.map_cons, kindOf, putValues, ih hdone.2]

theorem filterMap_putWritten_sublist (l : List (TState α)) :
    (l.filterMap putWritten).Sublist (putValues (l.map kindOf)) := by
  induction l with
  | nil => exact List.Sublist.refl _
  | cons t rest ih =>
    cases t with
    | pW v =>
      simp only [List.filterMap_cons, putWritten, List.map_cons, kindOf, putValues]
      exact ih.cons v
    | pM v =>
      simp only [List.filterMap_cons, putWritten, List.map_cons, kindOf, putValues]
      exact ih.cons v
    | pS v =>
      simp only [List.filterMap_cons, putWritten, List.map_cons, kindOf, putValues]
      exact ih.cons v
    | pPostM v =>
      simp only [List.filterMap_cons, putWritten, List.map_cons, kindOf, putValues]
      exact ih.cons₂ v
    | pPostR v =>
      simp only [List.filterMap_cons, putWritten, List.map_cons, kindOf, putValues]
      exact ih.cons₂ v
    | pDone v =>
      simp only [List.filterMap_cons, putWritten, List.map_cons, kindOf, putValues]
      exact ih.cons₂ v
    | gW =>
      simp only [List.filterMap_cons, putWritten, List.map_cons, kindOf, putValues]
      exact ih
    | gM =>
      simp only [List.filterMap_cons, putWritten, List.map_cons, kindOf, putValues]
      exact ih
    | gL =>
      simp only [List.filterMap_cons, putWritten, List.map_cons, kindOf, putValues]
      exact ih
    | gPostM r =>
      simp only [List.filterMap_cons, putWritten, List.map_cons, kindOf, putValues]
      exact ih
    | gPostW r =>
      simp only [List.filterMap_cons, putWritten, List.map_cons, kindOf, putValues]
      exact ih
    | gDone r =>
      simp only [List.filterMap_cons, putWritten, List.map_cons, kindOf, putValues]
      exact ih

/-- A property of the final state of a run, holding vacuously when the
schedule blocks. -/
def onSome (P : β → Prop) : Option β → Prop
  | none => True
  | some b => P b

/-- C8: for concurrently issued `queue_put`/`queue_get` calls on one queue
of positive capacity, with pairwise distinct items put, and for every
schedule (interleaving) of their atomic steps: no two gets ever hold the
same item, every item a get returns was enqueued by some put, and if the
schedule runs every call to completion with as many gets as puts, the
values returned by the gets are a permutation of the values put — every
enqueued item is dequeued exactly once, none lost, none duplicated. -/
theorem C8_concurrent_no_loss_no_dup (α : Type) (sz : Int) (ops : List (QOp α))
    (choices : List Nat) (hsz : 1 ≤ sz) (hnd : (putValues ops).Nodup) :
    onSome (fun final =>
      (final.threads.filterMap getVal).Nodup ∧
      (∀ r ∈ final.threads.filterMap getVal, r ∈ putValues ops) ∧
      (final.threads.all isDone = true → numGets ops = (putValues ops).length →
        (final.threads.filterMap getVal).Perm (putValues ops)))
      (runSched (initCState α sz ops) choices) := by
  cases hrun : runSched (initCState α sz ops) choices with
  | none => exact trivial
  | some final =>
    show (final.threads.filterMap getVal).Nodup ∧
      (∀ r ∈ final.threads.filterMap getVal, r ∈ putValues ops) ∧
      (final.threads.all isDone = true → numGets ops = (putValues ops).length →
        (final.threads.filterMap getVal).Perm (putValues ops))
    have hInv := runSched_inv ops choices _ final hrun (CInv_init α sz ops hsz)
    have hsubl : (final.threads.filterMap putWritten).Sublist (putValues ops) := by
      have h := filterMap_putWritten_sublist final.threads
      rw [hInv.hkind] at h
      exact h
    have hpwNodup : (final.threads.filterMap putWritten).Nodup := hsubl.nodup hnd
    have henqNodup : final.enq.Nodup := hInv.hpw.nodup hpwNodup
    have hdeqNodup : final.deq.Nodup := by
      rw [hInv.hdeq]
      exact (List.take_sublist _ _).nodup henqNodup
    refine ⟨hInv.hgv.symm.nodup hdeqNodup, ?_, ?_⟩
    · intro r hr
      have h1 : r ∈ final.deq := (hInv.hgv.mem_iff).mp hr
      rw [hInv.hdeq] at h1
      have h2 : r ∈ final.enq := List.mem_of_mem_take h1
      have h3 : r ∈ final.threads.filterMap putWritten := (hInv.hpw.mem_iff).mpr h2
      exact List.Sublist.mem h3 hsubl
    · intro hdone hcnt
      have hWlen : final.enq.length = (putValues ops).length := by
        rw [hInv.hW, countP_putWrote_done final.threads hdone, hInv.hkind]
      have hRlen : final.deq.length = (putValues ops).length := by
        rw [hInv.hR, countP_getRead_done final.threads hdone, hInv.hkind, ← hcnt]
      have hdeqeq : final.deq = final.enq := by
        rw [hInv.hdeq, hRlen, ← hWlen, List.take_length]
      have hfmp : final.threads.filterMap putWritten = putValues ops := by
        rw [filterMap_putWritten_done final.threads hdone, hInv.hkind]
      have hchain : final.deq.Perm (putValues ops) := by
        rw [hdeqeq, ← hfmp]
        exact hInv.hpw.symm
      exact hInv.hgv.trans hchain

theorem C8_concurrent_no_loss_no_dup_witness :
    (1 : Int) ≤ 1 ∧
    (putValues [QOp.put 7, QOp.get]).Nodup ∧
    ((runSched (initCState Nat 1 [QOp.put 7, QOp.get])
        [0, 0, 0, 0, 0, 1, 1, 1, 1, 1]).map
      (fun s => s.threads.filterMap getVal) = some [7]) ∧
    onSome (fun final =>
      (final.threads.filterMap getVal).Nodup ∧
      (∀ r ∈ final.threads.filterMap getVal, r ∈ putValues [QOp.put 7, QOp.get]) ∧
      (final.threads.all isDone = true →
        numGets [QOp.put 7, QOp.get] = (putValues [QOp.put 7, QOp.get]).length →
        (final.threads.filterMap getVal).Perm (putValues [QOp.put 7, QOp.get])))
      (runSched (initCState Nat 1 [QOp.put 7, QOp.get]) [0, 0, 0, 0, 0, 1, 1, 1, 1, 1]) :=
  ⟨by decide, by decide, by decide,
    C8_concurrent_no_loss_no_dup Nat 1 [QOp.put 7, QOp.get]
      [0, 0, 0, 0, 0, 1, 1, 1, 1, 1] (by decide) (by decide)⟩

end DownloaderProof
